import Mathlib

/-
Verification of the deferred Elasticsearch command-query layer
(`apps/terminal/backends/command/es.py`): the `CommandStore.get_query_body`
translator and the clone-on-write `QuerySet` builder (its `_filter_kwargs`,
`_sort`, slicing, `count` and staging behaviour), shallowly embedded as pure
Lean functions over an insertion-ordered association-list model of Python
dicts and an explicit operation log.
-/

set_option maxRecDepth 4000

namespace ES

/-- A Python scalar value as used by the command filters: a string or an
integer (`risk_level` is an int, everything else a string). -/
inductive Value where
  | str (s : String)
  | int (n : Int)
deriving DecidableEq, Repr

/-- Python truthiness for the values above: empty string and zero are falsy. -/
def Value.truthy : Value → Bool
  | .str s => s != ""
  | .int n => n != 0

/-- A Python dict with string keys, modelled as an insertion-ordered
association list (no duplicate keys arise from the operations below). -/
abbrev Dict := List (String × Value)

/-- Python `d[k] = v`: update the value at the first occurrence of `k`
keeping its position, or append a fresh entry at the end. -/
def dinsert {α : Type} : List (String × α) → String → α → List (String × α)
  | [], k, v => [(k, v)]
  | p :: ps, k, v => if p.1 = k then (p.1, v) :: ps else p :: dinsert ps k v

/-- Python `d.get(k)`: the value at the first occurrence of `k`, if any. -/
def dget {α : Type} : List (String × α) → String → Option α
  | [], _ => none
  | p :: ps, k => if p.1 = k then some p.2 else dget ps k

/-- The keys of a dict, in insertion order. -/
def dkeys {α : Type} (d : List (String × α)) : List String := d.map Prod.fst

/-- Python `{**x, **y}`: every entry of `y` inserted into `x` in order. -/
def dictUnion (x y : Dict) : Dict :=
  y.foldl (fun acc p => dinsert acc p.1 p.2) x

/-- Whether the first list is an initial segment of the second
(character-level helper for Python `str.replace`). -/
def leadsWith : List Char → List Char → Bool
  | [], _ => true
  | _ :: _, [] => false
  | p :: ps, c :: cs => p = c && leadsWith ps cs

/-- The characters of the pattern `__exact`. -/
def exactPat : List Char := ['_', '_', 'e', 'x', 'a', 'c', 't']

/-- Fuel-driven core of Python `k.replace('__exact', '')`: delete every
leftmost non-overlapping occurrence of `__exact`.  A fuel equal to the
length of the list is always enough, since every step consumes at least
one character. -/
def replaceExactAux : Nat → List Char → List Char
  | 0, l => l
  | _ + 1, [] => []
  | n + 1, c :: cs =>
    if leadsWith exactPat (c :: cs) then replaceExactAux n ((c :: cs).drop 7)
    else c :: replaceExactAux n cs

/-- Python `k.replace('__exact', '')` on strings. -/
def replaceExact (s : String) : String :=
  ⟨replaceExactAux s.data.length s.data⟩

/-- Python `field.startswith('-')`. -/
def beginsDash (s : String) : Bool :=
  match s.data with
  | [] => false
  | c :: _ => c = '-'

/-- Python `field.lstrip('-+')`: drop every leading `-` or `+`. -/
def stripSigns (s : String) : String :=
  ⟨s.data.dropWhile (fun c => c = '-' || c = '+')⟩

/-- One staged method call `(item, args, kwargs)` from the operation log:
`order_by` carries its fields in `args`, `filter` its constraints in
`kwargs`. -/
structure Call where
  name : String
  args : List String
  kwargs : Dict
deriving DecidableEq, Repr

/-- `itertools.groupby` on the operation log keyed by the call name:
maximal runs of consecutive calls with the same name, in order. -/
def chunkRuns : List Call → List (String × List Call)
  | [] => []
  | c :: cs =>
    match chunkRuns cs with
    | [] => [(c.name, [c])]
    | (k, run) :: rest =>
      if c.name = k then (k, c :: run) :: rest
      else (c.name, [c]) :: (k, run) :: rest

/-- `QuerySet._grouped_method_calls` on a raw log: the dict comprehension
`{k: list(v) for k, v in groupby(calls, name)}` — later runs of the same
name overwrite earlier ones. -/
def groupedCalls (calls : List Call) : List (String × List Call) :=
  (chunkRuns calls).foldl (fun acc p => dinsert acc p.1 p.2) []

/-- `QuerySet._filter_kwargs` on a raw log: take the grouped `filter`
calls, merge their kwargs with `reduce(lambda x, y: {**x, **y}, ..., {})`,
then rebuild the dict with `__exact` removed from every key. -/
def filterKwargsOfCalls (calls : List Call) : Dict :=
  let filter_calls := (dget (groupedCalls calls) "filter").getD []
  let merged := filter_calls.foldl (fun acc c => dictUnion acc c.kwargs) []
  merged.foldl (fun acc p => dinsert acc (replaceExact p.1) p.2) []

/-- The sort string `f'{field}:{direction}'` built by `QuerySet._sort`
from one raw field name. -/
def fmtSort (field : String) : String :=
  stripSigns field ++ ":" ++ (if beginsDash field then "desc" else "asc")

/-- The loop of `QuerySet._sort` over the (already reversed) grouped
`order_by` calls: return on the first call with a non-empty field list,
using its last field. -/
def findSort : List Call → Option String
  | [] => none
  | c :: rest =>
    match c.args.getLast? with
    | some f => some (fmtSort f)
    | none => findSort rest

/-- `QuerySet._sort` on a raw log. -/
def sortOfCalls (calls : List Call) : Option String :=
  match dget (groupedCalls calls) "order_by" with
  | none => none
  | some order_by => findSort order_by.reverse

/-- One clause of the boolean query body produced by
`CommandStore.get_query_body`. -/
inductive Clause where
  | term (field : String) (v : Value)
  | matchQ (field : String) (v : Value)
  | range (gte : Value) (lte : Value)
  | wildcardOrg
deriving DecidableEq, Repr

/-- The `bool` query of the translated body: `must` match clauses,
`must_not` exclusions, and `filter` term/range clauses. -/
structure QueryBody where
  must : List Clause
  must_not : List Clause
  filter : List Clause
deriving DecidableEq, Repr

/-- The `exact_fields` set of `get_query_body`. -/
def exact_fields : List String := ["user", "asset", "system_user"]

/-- The `match_fields` set of `get_query_body`. -/
def match_fields : List String := ["session", "input", "org_id", "risk_level"]

/-- The routing loop of `get_query_body`: build the `match` and `exact`
dicts from the kwargs (`if k in exact_fields ... elif k in match_fields`). -/
def routeFields (kwargs : Dict) : Dict × Dict :=
  kwargs.foldl
    (fun me p =>
      if p.1 ∈ exact_fields then (me.1, dinsert me.2 p.1 p.2)
      else if p.1 ∈ match_fields then (dinsert me.1 p.1 p.2, me.2)
      else me)
    ([], [])

/-- `CommandStore.get_query_body`: route kwargs into match/exact dicts,
emit the timestamp range only when `date_from` and `date_to` are both
truthy, rewrite an empty-string `org_id` into a wildcard exclusion, and
assemble the boolean body. -/
def get_query_body (kwargs : Dict) : QueryBody :=
  let me := routeFields kwargs
  let date_from := dget kwargs "date_from"
  let date_to := dget kwargs "date_to"
  let extra_filter : List Clause :=
    match date_from, date_to with
    | some f, some t => if f.truthy && t.truthy then [Clause.range f t] else []
    | _, _ => []
  let org_id := dget me.1 "org_id"
  let matchD := if org_id = some (Value.str "") then
      me.1.filter (fun p => p.1 != "org_id")
    else me.1
  let must_not : List Clause :=
    if org_id = some (Value.str "") then [Clause.wildcardOrg] else []
  { must := matchD.map (fun p => Clause.matchQ p.1 p.2)
  , must_not := must_not
  , filter := me.2.map (fun p => Clause.term p.1 p.2) ++ extra_filter }

/-- The query-relevant state of a `QuerySet` builder: its staged operation
log and its at-most-once pagination window `(from_, size)`. -/
structure QuerySet where
  _method_calls : List Call
  _slice : Option (Int × Int)
deriving DecidableEq, Repr

/-- `QuerySet.__init__`: empty log, no pagination window. -/
def QuerySet.init : QuerySet :=
  { _method_calls := [], _slice := none }

/-- `QuerySet.__stage_method_call`: clone the builder (copying the log and
keeping the window) and append the staged call to the clone. -/
def QuerySet.stage_method_call (qs : QuerySet) (c : Call) : QuerySet :=
  { _method_calls := qs._method_calls ++ [c], _slice := qs._slice }

/-- A chained `filter(**kwargs)` call, recorded generically through
`__getattribute__` and `__stage_method_call`. -/
def QuerySet.filter (qs : QuerySet) (kwargs : Dict) : QuerySet :=
  qs.stage_method_call ⟨"filter", [], kwargs⟩

/-- A chained `order_by(*fields)` call, recorded generically through
`__getattribute__` and `__stage_method_call`. -/
def QuerySet.order_by (qs : QuerySet) (fields : List String) : QuerySet :=
  qs.stage_method_call ⟨"order_by", fields, []⟩

/-- The `_filter_kwargs` lazy property of a builder. -/
def QuerySet._filter_kwargs (qs : QuerySet) : Dict :=
  filterKwargsOfCalls qs._method_calls

/-- The `_sort` lazy property of a builder. -/
def QuerySet._sort (qs : QuerySet) : Option String :=
  sortOfCalls qs._method_calls

/-- The backend search request issued by `QuerySet.__execute` via
`CommandStore.filter`: the merged filter kwargs, the translated body, and
the request-level `from_`, `size` and `sort` parameters. -/
structure SearchRequest where
  query : Dict
  body : QueryBody
  from_ : Option Int
  size : Option Int
  sort : Option String
deriving DecidableEq, Repr

/-- `QuerySet.__execute`: derive kwargs, sort and the pagination window
(`self._slice or (None, None)`) and hand them to the store. -/
def QuerySet.execute (qs : QuerySet) : SearchRequest :=
  { query := qs._filter_kwargs
  , body := get_query_body qs._filter_kwargs
  , from_ := qs._slice.map Prod.fst
  , size := qs._slice.map Prod.snd
  , sort := qs._sort }

/-- The body of the count request issued by `QuerySet.count` through
`CommandStore.count`: built from the merged filter kwargs only. -/
def QuerySet.count_body (qs : QuerySet) : QueryBody :=
  get_query_body qs._filter_kwargs

/-- The outcome of `QuerySet.__getitem__` with a slice argument: either a
staged clone carrying the new window, or an immediate execution (whose
results Python then slices in memory). -/
inductive GetItemSlice where
  | staged (qs : QuerySet)
  | executed (req : SearchRequest)
deriving DecidableEq, Repr

/-- Python `item.start or 0` for the slice start. -/
def pyOr0 : Option Int → Int
  | none => 0
  | some s => if s = 0 then 0 else s

/-- The pagination window `(from_, size)` computed by `__getitem__` for a
first slice: `from_ = start or 0`, `size = 10` when `stop` is unset and
`stop - from_` otherwise. -/
def sliceWindow (start stop : Option Int) : Int × Int :=
  let from_ := pyOr0 start
  (from_, match stop with | none => 10 | some st => st - from_)

/-- `QuerySet.__getitem__` on a slice: stage a clone with the window when
none is set yet, otherwise fall through to `self.__execute()[item]`. -/
def QuerySet.getitem_slice (qs : QuerySet) (start stop : Option Int) :
    GetItemSlice :=
  match qs._slice with
  | none =>
    GetItemSlice.staged
      { _method_calls := qs._method_calls, _slice := some (sliceWindow start stop) }
  | some _ => GetItemSlice.executed qs.execute

/-- Chaining a sequence of `filter` calls on a builder. -/
def chainFilters (qs : QuerySet) (ks : List Dict) : QuerySet :=
  ks.foldl QuerySet.filter qs

/-- A heap of Python list objects (the `_method_calls` lists), used to
model aliasing and in-place mutation for the clone-on-write contract. -/
structure Heap where
  cells : List (List Call)
deriving DecidableEq, Repr

/-- Dereference a list object. -/
def hget (h : Heap) (r : Nat) : List Call :=
  h.cells.getD r []

/-- Allocate a fresh list object, returning its reference. -/
def halloc (h : Heap) (l : List Call) : Heap × Nat :=
  (⟨h.cells ++ [l]⟩, h.cells.length)

/-- A builder whose `_method_calls` is a reference into the heap. -/
structure HQuerySet where
  logRef : Nat
  _slice : Option (Int × Int)
deriving DecidableEq, Repr

/-- `QuerySet.__clone`: a fresh builder holding `self._method_calls.copy()`
(a newly allocated list with the same contents) and the same `_slice`. -/
def hclone (h : Heap) (b : HQuerySet) : Heap × HQuerySet :=
  let ar := halloc h (hget h b.logRef)
  (ar.1, { logRef := ar.2, _slice := b._slice })

/-- Python `lst.append(c)`: in-place mutation of the referenced list. -/
def happend (h : Heap) (r : Nat) (c : Call) : Heap :=
  ⟨h.cells.set r (hget h r ++ [c])⟩

/-- `QuerySet.__stage_method_call` against the heap: clone, then append
the staged call to the clone's list. -/
def hstage (h : Heap) (b : HQuerySet) (c : Call) : Heap × HQuerySet :=
  let hb := hclone h b
  (happend hb.1 hb.2.logRef c, hb.2)

/-- First-time `__getitem__` slicing against the heap: clone, then set the
clone's `_slice` to the computed window. -/
def hslice (h : Heap) (b : HQuerySet) (start stop : Option Int) :
    Heap × HQuerySet :=
  let hb := hclone h b
  (hb.1, { hb.2 with _slice := some (sliceWindow start stop) })

/-- Modelled from the spec: the claimed merged filter map — the dict-union
of each call's kwargs taken in call order, later keys overriding. -/
def specFilterUnion (ks : List Dict) : Dict :=
  ks.foldl dictUnion []

/-- Modelled from the spec: strip one trailing `__exact` suffix from a
field name, leaving other names unchanged. -/
def stripSuffixExact (s : String) : String :=
  if leadsWith exactPat.reverse s.data.reverse then
    ⟨(s.data.reverse.drop 7).reverse⟩
  else s

/-- Modelled from the spec: first strip the `__exact` suffix from every
key of every call, then merge the calls in order. -/
def specStripThenMerge (ks : List Dict) : Dict :=
  specFilterUnion (ks.map (fun d => d.map (fun p => (stripSuffixExact p.1, p.2))))

/-- Modelled from the spec: sort resolution that scans all `order_by`
entries of the log from last to first and uses the last field of the most
recent call with a non-empty field list. -/
def specSortScan (calls : List Call) : Option String :=
  findSort (calls.filter (fun c => c.name == "order_by")).reverse

/-- The last run with key `k` in a run list (used to characterise the
overwriting dict comprehension of `_grouped_method_calls`). -/
def runsFor (k : String) : List (String × List Call) → Option (List Call)
  | [] => none
  | p :: rest =>
    match runsFor k rest with
    | some r => some r
    | none => if p.1 = k then some p.2 else none

/-- The last call named `k` in an operation log. -/
def lastWith (k : String) : List Call → Option Call
  | [] => none
  | c :: cs =>
    match lastWith k cs with
    | some c2 => some c2
    | none => if c.name = k then some c else none

/-! ### Dict lemmas -/

theorem dget_dinsert {α : Type} (d : List (String × α)) (k : String) (v : α)
    (k' : String) :
    dget (dinsert d k v) k' = if k' = k then some v else dget d k' := by
  induction d with
  | nil =>
    by_cases h : k' = k
    · subst h; simp [dinsert, dget]
    · simp [dinsert, dget, h, Ne.symm h]
  | cons p ps ih =>
    by_cases hp : p.1 = k
    · by_cases h : k' = k
      · subst h; simp [dinsert, dget, hp]
      · have hp' : ¬ p.1 = k' := fun he => h (he ▸ hp)
        simp [dinsert, dget, hp, hp', h, Ne.symm h]
    · by_cases h2 : p.1 = k'
      · have hne : ¬ k' = k := fun he => hp (h2.trans he)
        simp [dinsert, dget, hp, h2, hne]
      · simp [dinsert, dget, hp, h2, ih]

theorem dinsert_of_not_mem {α : Type} (d : List (String × α)) (k : String)
    (v : α) (h : k ∉ dkeys d) : dinsert d k v = d ++ [(k, v)] := by
  induction d with
  | nil => simp [dinsert]
  | cons p ps ih =>
    simp only [dkeys, List.map_cons, List.mem_cons] at h
    push_neg at h
    have hp : ¬ p.1 = k := fun he => h.1 he.symm
    simp [dinsert, hp, ih (by simpa [dkeys] using h.2)]

theorem dkeys_dinsert {α : Type} (d : List (String × α)) (k : String) (v : α) :
    dkeys (dinsert d k v) = if k ∈ dkeys d then dkeys d else dkeys d ++ [k] := by
  induction d with
  | nil => simp [dinsert, dkeys]
  | cons p ps ih =>
    by_cases hp : p.1 = k
    · subst hp; simp [dinsert, dkeys]
    · have hk : ¬ k = p.1 := fun he => hp he.symm
      simp only [dkeys] at ih ⊢
      by_cases hm : k ∈ List.map Prod.fst ps
      · simp [dinsert, hp, hm, hk, ih]
      · simp [dinsert, hp, hm, hk, ih]

theorem nodup_dkeys_dinsert {α : Type} (d : List (String × α)) (k : String)
    (v : α) (h : (dkeys d).Nodup) : (dkeys (dinsert d k v)).Nodup := by
  rw [dkeys_dinsert]
  by_cases hm : k ∈ dkeys d
  · simpa [hm] using h
  · rw [if_neg hm]
    refine List.Nodup.append h (List.nodup_singleton k) ?_
    intro a ha hb
    simp only [List.mem_singleton] at hb
    exact hm (hb ▸ ha)

theorem nodup_dkeys_dictUnion (x y : Dict) (h : (dkeys x).Nodup) :
    (dkeys (dictUnion x y)).Nodup := by
  unfold dictUnion
  induction y generalizing x with
  | nil => simpa using h
  | cons p ps ih => exact ih _ (nodup_dkeys_dinsert _ _ _ h)

theorem dkeys_dictUnion_subset (x y : Dict) :
    ∀ s ∈ dkeys (dictUnion x y), s ∈ dkeys x ∨ s ∈ dkeys y := by
  unfold dictUnion
  induction y generalizing x with
  | nil => exact fun s hs => Or.inl hs
  | cons p ps ih =>
    intro s hs
    rcases ih (dinsert x p.1 p.2) s hs with h | h
    · rw [dkeys_dinsert] at h
      by_cases hm : p.1 ∈ dkeys x
      · simp only [if_pos hm] at h; exact Or.inl h
      · simp only [if_neg hm, List.mem_append, List.mem_singleton] at h
        rcases h with h | h
        · exact Or.inl h
        · exact Or.inr (by simp [dkeys, h])
    · exact Or.inr (by simp [dkeys] at h ⊢; exact Or.inr h)

/-- Re-inserting the entries of a key-distinct dict into a disjoint
accumulator just appends them. -/
theorem foldl_dinsert_append {α : Type} (d acc : List (String × α))
    (h : (dkeys acc ++ dkeys d).Nodup) :
    d.foldl (fun a p => dinsert a p.1 p.2) acc = acc ++ d := by
  induction d generalizing acc with
  | nil => simp
  | cons p ps ih =>
    have hnotin : p.1 ∉ dkeys acc := by
      intro hmem
      exact (List.disjoint_of_nodup_append h) hmem (by simp [dkeys])
    rw [List.foldl_cons, dinsert_of_not_mem _ _ _ hnotin, ih]
    · simp
    · have : dkeys (acc ++ [(p.1, p.2)]) = dkeys acc ++ [p.1] := by
        simp [dkeys]
      rw [this]
      have h' : (dkeys acc ++ (p.1 :: dkeys ps)).Nodup := by
        simpa [dkeys] using h
      simpa [List.append_assoc, List.nodup_append, List.nodup_cons,
        List.disjoint_cons_right] using h'

theorem foldl_dinsert_id {α : Type} (d : List (String × α))
    (h : (dkeys d).Nodup) :
    d.foldl (fun a p => dinsert a p.1 p.2) [] = d := by
  simpa using foldl_dinsert_append d [] (by simpa [dkeys] using h)

theorem dget_some_mem {α : Type} (d : List (String × α)) (k : String) (v : α)
    (h : dget d k = some v) : (k, v) ∈ d := by
  induction d with
  | nil => simp [dget] at h
  | cons p ps ih =>
    by_cases hp : p.1 = k
    · simp only [dget, if_pos hp] at h
      have hv : p.2 = v := by injection h
      have hkv : (k, v) = p := by rw [← hp, ← hv]
      rw [hkv]
      exact List.mem_cons_self _ _
    · simp only [dget, if_neg hp] at h
      exact List.mem_cons_of_mem _ (ih h)

theorem dget_filter_key {α : Type} (f : String → Bool)
    (d : List (String × α)) (k : String) (hk : f k = true) :
    dget (d.filter (fun p => f p.1)) k = dget d k := by
  induction d with
  | nil => simp
  | cons p ps ih =>
    by_cases hp : p.1 = k
    · simp [List.filter_cons, dget, hp, hk]
    · by_cases hf : f p.1 <;> simp [List.filter_cons, dget, hp, hf, ih]

/-! ### Grouping lemmas: `groupby` plus the overwriting dict comprehension -/

theorem dget_foldl_runs (runs : List (String × List Call))
    (acc : List (String × List Call)) (k : String) :
    dget (runs.foldl (fun a p => dinsert a p.1 p.2) acc) k
      = match runsFor k runs with
        | some r => some r
        | none => dget acc k := by
  induction runs generalizing acc with
  | nil => simp [runsFor]
  | cons p rest ih =>
    rw [List.foldl_cons, ih]
    show _ = (match runsFor k (p :: rest) with
      | some r => some r
      | none => dget acc k)
    rw [runsFor]
    cases runsFor k rest with
    | some r => simp
    | none =>
      by_cases hp : p.1 = k
      · simp [dget_dinsert, hp]
      · have hk : ¬ k = p.1 := fun h => hp h.symm
        simp [dget_dinsert, hp, hk]

theorem dget_groupedCalls (calls : List Call) (k : String) :
    dget (groupedCalls calls) k = runsFor k (chunkRuns calls) := by
  rw [groupedCalls, dget_foldl_runs]
  cases runsFor k (chunkRuns calls) <;> simp [dget]

theorem chunkRuns_cons_eq (c : Call) (cs : List Call) :
    chunkRuns (c :: cs)
      = (c.name, (c :: cs).takeWhile (fun x => x.name == c.name))
        :: chunkRuns ((c :: cs).dropWhile (fun x => x.name == c.name)) := by
  induction cs generalizing c with
  | nil => simp [chunkRuns, List.takeWhile_cons, List.dropWhile_cons]
  | cons c2 cs2 ih =>
    rw [show chunkRuns (c :: c2 :: cs2)
        = (match chunkRuns (c2 :: cs2) with
           | [] => [(c.name, [c])]
           | (k, run) :: rest =>
             if c.name = k then (k, c :: run) :: rest
             else (c.name, [c]) :: (k, run) :: rest) from rfl,
      ih c2]
    by_cases h : c.name = c2.name
    · rw [← h]
      simp [List.takeWhile_cons, List.dropWhile_cons]
    · have h2 : (c2.name == c.name) = false := by
        simp only [beq_eq_false_iff_ne, ne_eq]
        exact fun he => h he.symm
      have ht : (c :: c2 :: cs2).takeWhile (fun x => x.name == c.name) = [c] := by
        simp [List.takeWhile_cons, h2]
      have hd : (c :: c2 :: cs2).dropWhile (fun x => x.name == c.name)
          = c2 :: cs2 := by
        simp [List.dropWhile_cons, h2]
      rw [ht, hd, ih c2]
      simp [h]

theorem runsFor_chunkRuns_skip (k : String) (c : Call) (cs : List Call)
    (h : c.name ≠ k) :
    runsFor k (chunkRuns (c :: cs)) = runsFor k (chunkRuns cs) := by
  rw [show chunkRuns (c :: cs)
      = (match chunkRuns cs with
         | [] => [(c.name, [c])]
         | (k2, run) :: rest =>
           if c.name = k2 then (k2, c :: run) :: rest
           else (c.name, [c]) :: (k2, run) :: rest) from rfl]
  cases hc : chunkRuns cs with
  | nil => simp [runsFor, h]
  | cons p rest =>
    obtain ⟨k2, run⟩ := p
    rw [show (match ((k2, run) :: rest : List (String × List Call)) with
        | [] => [(c.name, [c])]
        | (k3, run3) :: rest3 =>
          if c.name = k3 then (k3, c :: run3) :: rest3
          else (c.name, [c]) :: (k3, run3) :: rest3)
      = if c.name = k2 then (k2, c :: run) :: rest
        else (c.name, [c]) :: (k2, run) :: rest from rfl]
    by_cases he : c.name = k2
    · rw [if_pos he, runsFor, runsFor]
      have hk2 : ¬ k2 = k := fun hpk => h (he.trans hpk)
      cases runsFor k rest <;> simp [hk2]
    · rw [if_neg he, runsFor]
      cases runsFor k ((k2, run) :: rest) <;> simp [h]

theorem lastWith_cons_skip (k : String) (c : Call) (cs : List Call)
    (h : c.name ≠ k) : lastWith k (c :: cs) = lastWith k cs := by
  rw [lastWith]
  cases lastWith k cs <;> simp [h]

theorem lastWith_append (k : String) (a b : List Call) :
    lastWith k (a ++ b)
      = match lastWith k b with
        | some c => some c
        | none => lastWith k a := by
  induction a with
  | nil =>
    simp only [List.nil_append]
    cases hb : lastWith k b <;> simp [lastWith]
  | cons c cs ih =>
    rw [List.cons_append, lastWith, ih, lastWith]
    cases lastWith k b <;> cases lastWith k cs <;> simp

theorem lastWith_all_none (k : String) (l : List Call)
    (h : ∀ x ∈ l, x.name ≠ k) : lastWith k l = none := by
  induction l with
  | nil => rfl
  | cons c cs ih =>
    rw [lastWith, ih (fun x hx => h x (List.mem_cons_of_mem _ hx))]
    simp [h c (List.mem_cons_self _ _)]

theorem lastWith_all_getLast (k : String) (l : List Call)
    (h : ∀ x ∈ l, x.name = k) : lastWith k l = l.getLast? := by
  induction l with
  | nil => rfl
  | cons c cs ih =>
    rw [lastWith, ih (fun x hx => h x (List.mem_cons_of_mem _ hx))]
    cases cs with
    | nil => simp [lastWith, h c (List.mem_cons_self _ _)]
    | cons c2 cs2 =>
      have : lastWith k (c2 :: cs2) = (c2 :: cs2).getLast? :=
        ih (fun x hx => h x (List.mem_cons_of_mem _ hx))
      rw [List.getLast?_cons_cons]
      cases hg : (c2 :: cs2).getLast? with
      | some y => simp
      | none => simp at hg

theorem runsFor_chunkRuns_none (k : String) (l : List Call)
    (h : ∀ x ∈ l, x.name ≠ k) : runsFor k (chunkRuns l) = none := by
  induction l with
  | nil => rfl
  | cons c cs ih =>
    rw [runsFor_chunkRuns_skip k c cs (h c (List.mem_cons_self _ _))]
    exact ih (fun x hx => h x (List.mem_cons_of_mem _ hx))

/-- The run stored under key `k` by the overwriting dict comprehension ends
with the last call named `k` of the whole log (and exists exactly when such
a call exists). -/
theorem runsFor_lastWith (k : String) :
    ∀ n (calls : List Call), calls.length ≤ n →
      (lastWith k calls = none ∧ runsFor k (chunkRuns calls) = none) ∨
      (∃ run c, runsFor k (chunkRuns calls) = some run ∧
        lastWith k calls = some c ∧ run.getLast? = some c) := by
  intro n
  induction n with
  | zero =>
    intro calls hlen
    have hnil : calls = [] := List.length_eq_zero.mp (Nat.le_zero.mp hlen)
    subst hnil
    exact Or.inl ⟨rfl, rfl⟩
  | succ n ih =>
    intro calls hlen
    cases calls with
    | nil => exact Or.inl ⟨rfl, rfl⟩
    | cons c cs =>
      by_cases hk : c.name = k
      · have hpc : ((fun x : Call => x.name == c.name) c) = true := by simp
        have hdW : (c :: cs).dropWhile (fun x => x.name == c.name)
            = cs.dropWhile (fun x => x.name == c.name) := by
          rw [List.dropWhile_cons, if_pos hpc]
        have hdWlen : ((c :: cs).dropWhile (fun x => x.name == c.name)).length ≤ n := by
          rw [hdW]
          exact le_trans (List.dropWhile_sublist _).length_le
            (Nat.le_of_succ_le_succ (by simpa using hlen))
        have htWall : ∀ x ∈ (c :: cs).takeWhile (fun x => x.name == c.name),
            x.name = k := by
          intro x hx
          have hb := List.mem_takeWhile_imp hx
          simp only [beq_iff_eq] at hb
          rw [hb, hk]
        have htWne : (c :: cs).takeWhile (fun x => x.name == c.name) ≠ [] := by
          rw [List.takeWhile_cons, if_pos hpc]
          simp
        have hl := lastWith_append k
          ((c :: cs).takeWhile (fun x => x.name == c.name))
          ((c :: cs).dropWhile (fun x => x.name == c.name))
        rw [List.takeWhile_append_dropWhile] at hl
        rw [chunkRuns_cons_eq, runsFor]
        rcases ih _ hdWlen with ⟨hln, hrn⟩ | ⟨run, c2, hrs, hls, hgl⟩
        · rw [hrn, if_pos hk]
          rw [hln] at hl
          have hlt : lastWith k ((c :: cs).takeWhile (fun x => x.name == c.name))
              = ((c :: cs).takeWhile (fun x => x.name == c.name)).getLast? :=
            lastWith_all_getLast k _ htWall
          obtain ⟨y, hy⟩ : ∃ y,
              ((c :: cs).takeWhile (fun x => x.name == c.name)).getLast? = some y := by
            cases hg : ((c :: cs).takeWhile (fun x => x.name == c.name)).getLast? with
            | some y => exact ⟨y, rfl⟩
            | none => exact absurd (by simp at hg) htWne
          refine Or.inr ⟨_, y, rfl, ?_, hy⟩
          rw [hl, hlt, hy]
        · rw [hrs]
          rw [hls] at hl
          exact Or.inr ⟨run, c2, rfl, by rw [hl], hgl⟩
      · rw [runsFor_chunkRuns_skip k c cs hk, lastWith_cons_skip k c cs hk]
        exact ih cs (Nat.le_of_succ_le_succ (by simpa using hlen))

theorem getLast?_some_mem {α : Type} (l : List α) (a : α)
    (h : l.getLast? = some a) : a ∈ l := by
  obtain ⟨hne, he⟩ := List.mem_getLast?_eq_getLast (Option.mem_def.mpr h)
  rw [he]
  exact List.getLast_mem hne

theorem takeWhile_append_all {α : Type} (p : α → Bool) (a b : List α)
    (h : ∀ x ∈ a, p x = true) :
    (a ++ b).takeWhile p = a ++ b.takeWhile p := by
  induction a with
  | nil => simp
  | cons x xs ih =>
    rw [List.cons_append, List.takeWhile_cons,
      if_pos (h x (List.mem_cons_self _ _)), List.cons_append,
      ih (fun y hy => h y (List.mem_cons_of_mem _ hy))]

theorem dropWhile_append_all {α : Type} (p : α → Bool) (a b : List α)
    (h : ∀ x ∈ a, p x = true) :
    (a ++ b).dropWhile p = b.dropWhile p := by
  induction a with
  | nil => simp
  | cons x xs ih =>
    rw [List.cons_append, List.dropWhile_cons,
      if_pos (h x (List.mem_cons_self _ _)),
      ih (fun y hy => h y (List.mem_cons_of_mem _ hy))]

theorem dropWhile_ne_nil_of_exists {α : Type} (p : α → Bool) (l : List α)
    (h : ∃ x ∈ l, p x = false) : l.dropWhile p ≠ [] := by
  induction l with
  | nil => simp at h
  | cons x xs ih =>
    rw [List.dropWhile_cons]
    by_cases hx : p x = true
    · rw [if_pos hx]
      obtain ⟨y, hy, hyp⟩ := h
      rcases List.mem_cons.mp hy with rfl | hy'
      · rw [hx] at hyp; cases hyp
      · exact ih ⟨y, hy', hyp⟩
    · rw [if_neg hx]
      simp

theorem dropWhile_append_left {α : Type} (p : α → Bool) (a b : List α)
    (h : a.dropWhile p ≠ []) : (a ++ b).dropWhile p = a.dropWhile p ++ b := by
  induction a with
  | nil => simp [List.dropWhile] at h
  | cons x xs ih =>
    rw [List.cons_append, List.dropWhile_cons, List.dropWhile_cons]
    by_cases hx : p x = true
    · rw [if_pos hx, if_pos hx]
      exact ih (by rwa [List.dropWhile_cons, if_pos hx] at h)
    · rw [if_neg hx, if_neg hx, List.cons_append]

theorem getLast?_dropWhile {α : Type} (p : α → Bool) (l : List α)
    (h : l.dropWhile p ≠ []) : (l.dropWhile p).getLast? = l.getLast? := by
  induction l with
  | nil => simp [List.dropWhile] at h
  | cons x xs ih =>
    rw [List.dropWhile_cons]
    by_cases hx : p x = true
    · rw [if_pos hx]
      have h' : xs.dropWhile p ≠ [] := by
        rwa [List.dropWhile_cons, if_pos hx] at h
      have hxs : xs ≠ [] := by
        intro he; rw [he] at h'; exact h' rfl
      rw [ih h']
      cases xs with
      | nil => exact absurd rfl hxs
      | cons y ys => rw [List.getLast?_cons_cons]
    · rw [if_neg hx]

/-- A maximal block of `k`-named calls followed only by non-`k` calls is
exactly the run that the grouping stores under `k`. -/
theorem runsFor_chunkRuns_block (k : String) (mid post : List Call)
    (hmid : ∀ x ∈ mid, x.name = k) (hne : mid ≠ [])
    (hpost : ∀ x ∈ post, x.name ≠ k) :
    runsFor k (chunkRuns (mid ++ post)) = some mid := by
  obtain ⟨c, ms, rfl⟩ : ∃ c ms, mid = c :: ms := by
    cases mid with
    | nil => exact absurd rfl hne
    | cons c ms => exact ⟨c, ms, rfl⟩
  have hck : c.name = k := hmid c (List.mem_cons_self _ _)
  have hall : ∀ x ∈ c :: ms, (x.name == c.name) = true := by
    intro x hx
    simp [hmid x hx, hck]
  have hpfail : ∀ x ∈ post, (x.name == c.name) = false := by
    intro x hx
    simp only [beq_eq_false_iff_ne, ne_eq]
    rw [hck]
    exact hpost x hx
  have htpost : post.takeWhile (fun x => x.name == c.name) = [] := by
    cases post with
    | nil => rfl
    | cons q qs =>
      rw [List.takeWhile_cons, if_neg (by
        rw [hpfail q (List.mem_cons_self _ _)]; simp)]
  have hdpost : post.dropWhile (fun x => x.name == c.name) = post := by
    cases post with
    | nil => rfl
    | cons q qs =>
      rw [List.dropWhile_cons, if_neg (by
        rw [hpfail q (List.mem_cons_self _ _)]; simp)]
  have ht : ((c :: ms) ++ post).takeWhile (fun x => x.name == c.name)
      = c :: ms := by
    rw [takeWhile_append_all _ _ _ hall, htpost, List.append_nil]
  have hd : ((c :: ms) ++ post).dropWhile (fun x => x.name == c.name)
      = post := by
    rw [dropWhile_append_all _ _ _ hall, hdpost]
  rw [List.cons_append, chunkRuns_cons_eq, ← List.cons_append, ht, hd, runsFor,
    runsFor_chunkRuns_none k post hpost, if_pos hck]

/-- Prepending calls whose trailing element is not named `k` does not
change the run stored under `k`, as long as one exists. -/
theorem runsFor_chunkRuns_prepend (k : String) :
    ∀ n (pre : List Call), pre.length ≤ n →
      (∀ c, pre.getLast? = some c → c.name ≠ k) →
      ∀ (t r : List Call), runsFor k (chunkRuns t) = some r →
        runsFor k (chunkRuns (pre ++ t)) = some r := by
  intro n
  induction n with
  | zero =>
    intro pre hlen _ t r ht
    have hnil : pre = [] := List.length_eq_zero.mp (Nat.le_zero.mp hlen)
    subst hnil
    simpa using ht
  | succ n ih =>
    intro pre hlen hlast t r ht
    cases pre with
    | nil => simpa using ht
    | cons c ps =>
      by_cases hk : c.name = k
      · obtain ⟨cl, hcl⟩ : ∃ cl, (c :: ps).getLast? = some cl := by
          cases hg : (c :: ps).getLast? with
          | some y => exact ⟨y, rfl⟩
          | none => simp at hg
        have hclk : cl.name ≠ k := hlast cl hcl
        have hclfail : (cl.name == c.name) = false := by
          simp only [beq_eq_false_iff_ne, ne_eq]
          rw [hk]
          exact hclk
        have hdne : (c :: ps).dropWhile (fun x => x.name == c.name) ≠ [] :=
          dropWhile_ne_nil_of_exists _ _
            ⟨cl, getLast?_some_mem _ _ hcl, hclfail⟩
        have hsplit : ((c :: ps) ++ t).dropWhile (fun x => x.name == c.name)
            = (c :: ps).dropWhile (fun x => x.name == c.name) ++ t :=
          dropWhile_append_left _ _ _ hdne
        have hlen2 : ((c :: ps).dropWhile (fun x => x.name == c.name)).length ≤ n := by
          rw [List.dropWhile_cons, if_pos (by simp)]
          exact le_trans (List.dropWhile_sublist _).length_le
            (Nat.le_of_succ_le_succ (by simpa using hlen))
        have hlast2 : ∀ c2, ((c :: ps).dropWhile
            (fun x => x.name == c.name)).getLast? = some c2 → c2.name ≠ k := by
          intro c2 hc2
          rw [getLast?_dropWhile _ _ hdne, hcl] at hc2
          injection hc2 with hc2e
          rw [← hc2e]
          exact hclk
        rw [List.cons_append, chunkRuns_cons_eq, ← List.cons_append, hsplit,
          runsFor, ih _ hlen2 hlast2 t r ht]
      · rw [List.cons_append, runsFor_chunkRuns_skip k c _ hk]
        have hlast' : ∀ c2, ps.getLast? = some c2 → c2.name ≠ k := by
          intro c2 hc2
          apply hlast c2
          cases ps with
          | nil => simp at hc2
          | cons q qs => rwa [List.getLast?_cons_cons]
        exact ih ps (Nat.le_of_succ_le_succ (by simpa using hlen)) hlast' t r ht

/-! ### Derived characterisations of the builder state -/

theorem chainFilters_state (qs : QuerySet) (ks : List Dict) :
    (chainFilters qs ks)._method_calls
        = qs._method_calls ++ ks.map (fun d => Call.mk "filter" [] d)
      ∧ (chainFilters qs ks)._slice = qs._slice := by
  induction ks generalizing qs with
  | nil => simp [chainFilters]
  | cons d ds ih =>
    have h := ih (qs.filter d)
    rw [show chainFilters qs (d :: ds) = chainFilters (qs.filter d) ds from rfl]
    simpa [QuerySet.filter, QuerySet.stage_method_call] using h

/-- On a log decomposed into a non-`filter` prefix, a contiguous `filter`
block and a non-`filter` suffix, the merged filter kwargs are computed
from the block alone. -/
theorem filterKwargs_decomp (pre mid post : List Call)
    (hpre : ∀ x ∈ pre, x.name ≠ "filter")
    (hmid : ∀ x ∈ mid, x.name = "filter")
    (hpost : ∀ x ∈ post, x.name ≠ "filter") :
    filterKwargsOfCalls (pre ++ mid ++ post)
      = (mid.foldl (fun acc c => dictUnion acc c.kwargs) []).foldl
          (fun acc p => dinsert acc (replaceExact p.1) p.2) [] := by
  by_cases hm : mid = []
  · subst hm
    have hnone : runsFor "filter" (chunkRuns (pre ++ [] ++ post)) = none := by
      apply runsFor_chunkRuns_none
      intro x hx
      simp only [List.append_nil, List.mem_append] at hx
      rcases hx with hx | hx
      · exact hpre x hx
      · exact hpost x hx
    rw [filterKwargsOfCalls, dget_groupedCalls, hnone]
    rfl
  · have hsome : runsFor "filter" (chunkRuns (pre ++ mid ++ post)) = some mid := by
      rw [List.append_assoc]
      refine runsFor_chunkRuns_prepend "filter" pre.length pre le_rfl ?_ _ _
        (runsFor_chunkRuns_block "filter" mid post hmid hm hpost)
      intro c2 hc2
      exact hpre c2 (getLast?_some_mem _ _ hc2)
    rw [filterKwargsOfCalls, dget_groupedCalls, hsome]
    rfl

/-- The merged filter kwargs of a pure `filter` chain: the in-order union
of the calls, passed through the key rewriting of `_filter_kwargs`. -/
theorem filterKwargs_chainFilters (ks : List Dict) :
    (chainFilters QuerySet.init ks)._filter_kwargs
      = (specFilterUnion ks).foldl
          (fun acc p => dinsert acc (replaceExact p.1) p.2) [] := by
  have hlog := (chainFilters_state QuerySet.init ks).1
  rw [QuerySet._filter_kwargs, hlog]
  have hd := filterKwargs_decomp [] (ks.map (fun d => Call.mk "filter" [] d)) []
    (by simp)
    (by intro x hx; obtain ⟨d, _, rfl⟩ := List.mem_map.mp hx; rfl)
    (by simp)
  simp only [List.nil_append, List.append_nil] at hd
  show filterKwargsOfCalls ([] ++ ks.map (fun d => Call.mk "filter" [] d)) = _
  rw [List.nil_append, hd, List.foldl_map]
  rfl

theorem nodup_dkeys_specFilterUnion (ks : List Dict) :
    (dkeys (specFilterUnion ks)).Nodup := by
  suffices h : ∀ acc : Dict, (dkeys acc).Nodup →
      (dkeys (ks.foldl dictUnion acc)).Nodup by
    exact h [] (by simp [dkeys])
  induction ks with
  | nil => intro acc hacc; simpa using hacc
  | cons d ds ih =>
    intro acc hacc
    exact ih (dictUnion acc d) (nodup_dkeys_dictUnion acc d hacc)

theorem dkeys_specFilterUnion_from_calls (ks : List Dict) :
    ∀ s ∈ dkeys (specFilterUnion ks), ∃ d ∈ ks, s ∈ dkeys d := by
  suffices h : ∀ acc : Dict, ∀ s ∈ dkeys (ks.foldl dictUnion acc),
      s ∈ dkeys acc ∨ ∃ d ∈ ks, s ∈ dkeys d by
    intro s hs
    rcases h [] s hs with hc | hc
    · simp [dkeys] at hc
    · exact hc
  induction ks with
  | nil => intro acc s hs; exact Or.inl hs
  | cons d ds ih =>
    intro acc s hs
    rcases ih (dictUnion acc d) s hs with hc | ⟨d2, hd2, hs2⟩
    · rcases dkeys_dictUnion_subset acc d s hc with hc2 | hc2
      · exact Or.inl hc2
      · exact Or.inr ⟨d, List.mem_cons_self _ _, hc2⟩
    · exact Or.inr ⟨d2, List.mem_cons_of_mem _ hd2, hs2⟩

theorem strip_fold_id (d : Dict) (hnd : (dkeys d).Nodup)
    (h : ∀ p ∈ d, replaceExact p.1 = p.1) :
    d.foldl (fun acc p => dinsert acc (replaceExact p.1) p.2) [] = d := by
  have he : d.foldl (fun acc p => dinsert acc (replaceExact p.1) p.2) []
      = d.foldl (fun acc p => dinsert acc p.1 p.2) [] :=
    List.foldl_ext _ _ [] (fun acc p hp => by rw [h p hp])
  rw [he]
  exact foldl_dinsert_id d hnd

theorem sortOfCalls_none (calls : List Call)
    (h : ∀ c ∈ calls, c.name ≠ "order_by") : sortOfCalls calls = none := by
  rw [sortOfCalls, dget_groupedCalls, runsFor_chunkRuns_none _ _ h]

theorem reverse_eq_cons_of_getLast? {α : Type} (l : List α) (a : α)
    (h : l.getLast? = some a) : l.reverse = a :: l.dropLast.reverse := by
  have hne : l ≠ [] := by
    intro he
    rw [he] at h
    cases h
  have hlast : l.getLast hne = a := by
    rw [List.getLast?_eq_getLast_of_ne_nil hne] at h
    injection h
  conv_lhs => rw [← List.dropLast_append_getLast hne]
  rw [hlast, List.reverse_append]
  rfl

/-- If the last `order_by` call of the log has a non-empty field list,
`_sort` is built from its last field. -/
theorem sortOfCalls_of_lastWith (calls : List Call) (c : Call) (f : String)
    (hc : lastWith "order_by" calls = some c) (hf : c.args.getLast? = some f) :
    sortOfCalls calls = some (fmtSort f) := by
  rcases runsFor_lastWith "order_by" calls.length calls le_rfl with
    ⟨hl, _⟩ | ⟨run, c2, hrs, hls, hgl⟩
  · rw [hl] at hc
    cases hc
  · rw [hls] at hc
    injection hc with hce
    subst hce
    rw [sortOfCalls, dget_groupedCalls, hrs]
    show findSort run.reverse = some (fmtSort f)
    rw [reverse_eq_cons_of_getLast? run c2 hgl, findSort, hf]

/-- The routing fold of `get_query_body`, split into its two components. -/
theorem routeFields_fold (kwargs : Dict) (m e : Dict) :
    kwargs.foldl
      (fun me p =>
        if p.1 ∈ exact_fields then (me.1, dinsert me.2 p.1 p.2)
        else if p.1 ∈ match_fields then (dinsert me.1 p.1 p.2, me.2)
        else me) (m, e)
      = ((kwargs.filter
            (fun p => decide (p.1 ∉ exact_fields ∧ p.1 ∈ match_fields))).foldl
          (fun d p => dinsert d p.1 p.2) m,
         (kwargs.filter (fun p => decide (p.1 ∈ exact_fields))).foldl
          (fun d p => dinsert d p.1 p.2) e) := by
  induction kwargs generalizing m e with
  | nil => simp
  | cons p ps ih =>
    by_cases he : p.1 ∈ exact_fields
    · simp [List.filter_cons, he, ih]
    · by_cases hmm : p.1 ∈ match_fields
      · simp [List.filter_cons, he, hmm, ih]
      · simp [List.filter_cons, he, hmm, ih]

theorem nodup_dkeys_filter {α : Type} (pr : String × α → Bool)
    (d : List (String × α)) (h : (dkeys d).Nodup) :
    (dkeys (d.filter pr)).Nodup :=
  ((List.filter_sublist d).map Prod.fst).nodup h

/-- With distinct keys, the routing of `get_query_body` is plain filtering
of the kwargs into the match and exact dicts. -/
theorem routeFields_eq_filters (kwargs : Dict) (hnd : (dkeys kwargs).Nodup) :
    routeFields kwargs
      = (kwargs.filter
          (fun p => decide (p.1 ∉ exact_fields ∧ p.1 ∈ match_fields)),
         kwargs.filter (fun p => decide (p.1 ∈ exact_fields))) := by
  rw [routeFields, routeFields_fold]
  refine Prod.ext ?_ ?_
  · exact foldl_dinsert_id _ (nodup_dkeys_filter _ _ hnd)
  · exact foldl_dinsert_id _ (nodup_dkeys_filter _ _ hnd)

theorem dget_filter_of_key {α : Type} (pr : String × α → Bool)
    (d : List (String × α)) (k : String)
    (h : ∀ x : String × α, x.1 = k → pr x = true) :
    dget (d.filter pr) k = dget d k := by
  induction d with
  | nil => simp
  | cons p ps ih =>
    by_cases hp : p.1 = k
    · rw [List.filter_cons, if_pos (by rw [h p hp]), dget, dget, if_pos hp,
        if_pos hp]
    · by_cases hf : pr p = true
      · rw [List.filter_cons, if_pos (by rw [hf]), dget, dget, if_neg hp,
          if_neg hp, ih]
      · rw [List.filter_cons, if_neg (by simpa using hf), dget, if_neg hp, ih]

theorem hget_append_lt (cells : List (List Call)) (l : List Call) (r : Nat)
    (hr : r < cells.length) : hget ⟨cells ++ [l]⟩ r = hget ⟨cells⟩ r := by
  simp [hget, List.getD_eq_getElem?_getD, List.getElem?_append_left hr]

theorem hget_append_self (cells : List (List Call)) (l : List Call) :
    hget ⟨cells ++ [l]⟩ cells.length = l := by
  simp [hget, List.getD_eq_getElem?_getD, List.getElem?_concat_length]

theorem hget_set_ne (cells : List (List Call)) (r r2 : Nat) (l : List Call)
    (hne : r ≠ r2) : hget ⟨cells.set r l⟩ r2 = hget ⟨cells⟩ r2 := by
  simp [hget, List.getD_eq_getElem?_getD, List.getElem?_set_ne hne]

theorem hget_set_self (cells : List (List Call)) (r : Nat) (l : List Call)
    (hr : r < cells.length) : hget ⟨cells.set r l⟩ r = l := by
  simp [hget, List.getD_eq_getElem?_getD, List.getElem?_set_self hr]

theorem sliceWindow_eq (start stop : Option Int) :
    sliceWindow start stop
      = (start.getD 0,
         match stop with | none => 10 | some st => st - start.getD 0) := by
  rw [sliceWindow.eq_def]
  cases start with
  | none => rfl
  | some s =>
    by_cases hs : s = 0
    · subst hs
      simp [pyOr0]
    · simp [pyOr0, hs]

/-! ### Claim theorems -/

/-- Claim C1: the chain
`filter(user="alice").filter(risk_level=5).order_by("-timestamp")[0:20]`
stages a builder whose derived request carries exactly the term constraint
on `user` in the `filter` group, the match constraint on `risk_level` in
the `must` group, sort `"timestamp:desc"`, offset 0 and size 20. -/
theorem filter_order_slice_end_to_end :
    QuerySet.getitem_slice
        (((QuerySet.init.filter [("user", Value.str "alice")]).filter
            [("risk_level", Value.int 5)]).order_by ["-timestamp"])
        (some 0) (some 20)
      = GetItemSlice.staged
          { _method_calls :=
              [Call.mk "filter" [] [("user", Value.str "alice")],
               Call.mk "filter" [] [("risk_level", Value.int 5)],
               Call.mk "order_by" ["-timestamp"] []]
          , _slice := some (0, 20) }
    ∧ (QuerySet.mk
          [Call.mk "filter" [] [("user", Value.str "alice")],
           Call.mk "filter" [] [("risk_level", Value.int 5)],
           Call.mk "order_by" ["-timestamp"] []]
          (some (0, 20))).execute
      = { query := [("user", Value.str "alice"), ("risk_level", Value.int 5)]
        , body :=
          { must := [Clause.matchQ "risk_level" (Value.int 5)]
          , must_not := []
          , filter := [Clause.term "user" (Value.str "alice")] }
        , from_ := some 0
        , size := some 20
        , sort := some "timestamp:desc" } :=
  ⟨by decide, by decide⟩

/-- Claim C2: for every sequence of `filter` calls (whose keys carry no
`__exact` modifier — that rewriting is claim C3), the merged filter map is
the in-order dict-union of the calls' kwargs: later calls override earlier
values of the same key, keys appearing in a single call are retained. -/
theorem filter_calls_merge_union (ks : List Dict)
    (h : ∀ d ∈ ks, ∀ p ∈ d, replaceExact p.1 = p.1) :
    (chainFilters QuerySet.init ks)._filter_kwargs = specFilterUnion ks := by
  rw [filterKwargs_chainFilters]
  refine strip_fold_id _ (nodup_dkeys_specFilterUnion ks) ?_
  intro p hp
  have hk : p.1 ∈ dkeys (specFilterUnion ks) :=
    List.mem_map_of_mem Prod.fst hp
  obtain ⟨d, hd, hkd⟩ := dkeys_specFilterUnion_from_calls ks p.1 hk
  obtain ⟨q, hq, hq1⟩ :=
    List.mem_map.mp (show p.1 ∈ d.map Prod.fst from hkd)
  rw [← hq1]
  exact h d hd q hq

/-- Witness for C2: `filter(user="a").filter(user="b").filter(asset="x")`
merges to `{user: "b", asset: "x"}`. -/
theorem filter_calls_merge_union_witness :
    (chainFilters QuerySet.init
        [[("user", Value.str "a")], [("user", Value.str "b")],
         [("asset", Value.str "x")]])._filter_kwargs
      = [("user", Value.str "b"), ("asset", Value.str "x")] := by
  have h := filter_calls_merge_union
    [[("user", Value.str "a")], [("user", Value.str "b")],
     [("asset", Value.str "x")]] (by decide)
  exact h.trans (by decide)

/-- Claim C3 counterexample: the code merges the raw kwargs first and only
then rewrites `__exact` away, while the claim strips the suffix before
merging.  On `filter(user__exact="a").filter(user="b").filter(user__exact="c")`
the code yields `user="b"` but strip-then-merge yields `user="c"`; moreover
the code deletes every occurrence of `__exact`, not just a suffix, so
`filter(us__exacter="a")` yields key `user`. -/
theorem strip_before_merge_counterexample :
    (chainFilters QuerySet.init
        [[("user__exact", Value.str "a")], [("user", Value.str "b")],
         [("user__exact", Value.str "c")]])._filter_kwargs
      ≠ specStripThenMerge
        [[("user__exact", Value.str "a")], [("user", Value.str "b")],
         [("user__exact", Value.str "c")]]
    ∧ (chainFilters QuerySet.init
        [[("user__exact", Value.str "a")], [("user", Value.str "b")],
         [("user__exact", Value.str "c")]])._filter_kwargs
      = [("user", Value.str "b")]
    ∧ specStripThenMerge
        [[("user__exact", Value.str "a")], [("user", Value.str "b")],
         [("user__exact", Value.str "c")]]
      = [("user", Value.str "c")]
    ∧ (chainFilters QuerySet.init
        [[("us__exacter", Value.str "a")]])._filter_kwargs
      ≠ specStripThenMerge [[("us__exacter", Value.str "a")]]
    ∧ (chainFilters QuerySet.init
        [[("us__exacter", Value.str "a")]])._filter_kwargs
      = [("user", Value.str "a")] :=
  ⟨by decide, by decide, by decide, by decide, by decide⟩

/-- Claim C3 (amended): the merged filter map equals the result of first
merging the calls in order (last-write-wins per raw key) and then deleting
every occurrence of `__exact` from each merged key in insertion order,
a collision produced by the rewrite keeping the position of the earlier
key and the value of the later entry; in particular
`filter(user__exact="a")` still yields merged key `user` with value
`"a"`. -/
theorem filter_kwargs_merge_then_strip (ks : List Dict) :
    (chainFilters QuerySet.init ks)._filter_kwargs
      = (specFilterUnion ks).foldl
          (fun acc p => dinsert acc (replaceExact p.1) p.2) [] :=
  filterKwargs_chainFilters ks

/-- Claim C5: first-time slicing `[start:stop]` stages the pagination
window `(start or 0, stop - start)` with size defaulting to 10 when `stop`
is unset; slicing an already-sliced builder executes with the stored
window, leaving the backend pagination unchanged. -/
theorem slice_pagination_window (qs : QuerySet) (start stop : Option Int) :
    (qs._slice = none →
      qs.getitem_slice start stop
        = GetItemSlice.staged
            { _method_calls := qs._method_calls
            , _slice := some (start.getD 0,
                match stop with
                | none => 10
                | some st => st - start.getD 0) })
    ∧ (∀ w, qs._slice = some w →
      qs.getitem_slice start stop = GetItemSlice.executed qs.execute
      ∧ qs.execute.from_ = some w.1 ∧ qs.execute.size = some w.2) := by
  constructor
  · intro h
    rw [QuerySet.getitem_slice, h, sliceWindow_eq]
  · intro w hw
    refine ⟨by rw [QuerySet.getitem_slice, hw], ?_, ?_⟩
    · show qs._slice.map Prod.fst = some w.1
      rw [hw]
      rfl
    · show qs._slice.map Prod.snd = some w.2
      rw [hw]
      rfl

/-- Witness for C5: `[5:15]` on a fresh builder stages the window
`(5, 10)`, and `[5:]` also stages `(5, 10)`. -/
theorem slice_pagination_window_witness :
    QuerySet.init.getitem_slice (some 5) (some 15)
      = GetItemSlice.staged { _method_calls := [], _slice := some (5, 10) } := by
  have h := (slice_pagination_window QuerySet.init (some 5) (some 15)).1 rfl
  exact h.trans (by decide)

/-- Claim C4: when the last `order_by` entry of the log lists at least one
field, the resolved sort comes from that entry's last field — a leading
`-` gives `<field>:desc`, a leading `+` or nothing gives `<field>:asc` —
and a log with no `order_by` entry resolves to no sort at all. -/
theorem sort_from_last_order_by_call (qs : QuerySet) :
    (∀ c f, lastWith "order_by" qs._method_calls = some c →
      c.args.getLast? = some f →
      qs._sort = some (stripSigns f ++ ":"
        ++ (if beginsDash f then "desc" else "asc")))
    ∧ ((∀ c ∈ qs._method_calls, c.name ≠ "order_by") → qs._sort = none) := by
  constructor
  · intro c f hc hf
    exact sortOfCalls_of_lastWith qs._method_calls c f hc hf
  · intro h
    exact sortOfCalls_none qs._method_calls h

/-- Witness for C4: `order_by("-timestamp").order_by("user", "-session")`
resolves to sort `"session:desc"`. -/
theorem sort_from_last_order_by_call_witness :
    ((QuerySet.init.order_by ["-timestamp"]).order_by
        ["user", "-session"])._sort = some "session:desc" := by
  have h := (sort_from_last_order_by_call
      ((QuerySet.init.order_by ["-timestamp"]).order_by ["user", "-session"])).1
    (Call.mk "order_by" ["user", "-session"] []) "-session"
    (by decide) (by decide)
  exact h.trans (by decide)

/-- Claim C10 counterexample: `_sort` does not scan all `order_by` entries
of the log.  On the log `order_by("-a"), filter(user="x"), order_by()` the
grouping keeps only the trailing empty `order_by` run, so the code yields
no sort, while a last-to-first scan over all entries yields `"a:desc"`. -/
theorem sort_scan_all_entries_counterexample :
    (QuerySet.mk
        [Call.mk "order_by" ["-a"] [],
         Call.mk "filter" [] [("user", Value.str "x")],
         Call.mk "order_by" [] []] none)._sort = none
    ∧ specSortScan
        [Call.mk "order_by" ["-a"] [],
         Call.mk "filter" [] [("user", Value.str "x")],
         Call.mk "order_by" [] []] = some "a:desc"
    ∧ (QuerySet.mk
        [Call.mk "order_by" ["-a"] [],
         Call.mk "filter" [] [("user", Value.str "x")],
         Call.mk "order_by" [] []] none)._sort
      ≠ specSortScan
        [Call.mk "order_by" ["-a"] [],
         Call.mk "filter" [] [("user", Value.str "x")],
         Call.mk "order_by" [] []] :=
  ⟨by decide, by decide, by decide⟩

/-- Claim C10 (amended): sort resolution scans only the last consecutive
run of `order_by` entries (a maximal block not interrupted by other
operations), from last to first, and uses the last field of the most
recent call in that run whose field list is non-empty; if every call of
that run has an empty field list, no sort is applied. -/
theorem sort_from_last_consecutive_run (qs : QuerySet)
    (pre run post : List Call)
    (hdecomp : qs._method_calls = pre ++ run ++ post)
    (hrun : ∀ x ∈ run, x.name = "order_by") (hne : run ≠ [])
    (hpost : ∀ x ∈ post, x.name ≠ "order_by")
    (hpre : ∀ c, pre.getLast? = some c → c.name ≠ "order_by") :
    qs._sort = findSort run.reverse := by
  have hsome : runsFor "order_by" (chunkRuns (pre ++ run ++ post))
      = some run := by
    rw [List.append_assoc]
    exact runsFor_chunkRuns_prepend "order_by" pre.length pre le_rfl
      (fun c2 hc2 => hpre c2 hc2) _ _
      (runsFor_chunkRuns_block "order_by" run post hrun hne hpost)
  rw [QuerySet._sort, sortOfCalls, hdecomp, dget_groupedCalls, hsome]

/-- Witness for C10 (amended): on the log
`order_by("-a"), filter(), order_by("b"), filter()` only the run
`[order_by("b")]` is scanned, giving `"b:asc"`. -/
theorem sort_from_last_consecutive_run_witness :
    (QuerySet.mk
        [Call.mk "order_by" ["-a"] [], Call.mk "filter" [] [],
         Call.mk "order_by" ["b"] [], Call.mk "filter" [] []] none)._sort
      = some "b:asc" := by
  have h := sort_from_last_consecutive_run
    (QuerySet.mk
      [Call.mk "order_by" ["-a"] [], Call.mk "filter" [] [],
       Call.mk "order_by" ["b"] [], Call.mk "filter" [] []] none)
    [Call.mk "order_by" ["-a"] [], Call.mk "filter" [] []]
    [Call.mk "order_by" ["b"] []]
    [Call.mk "filter" [] []]
    rfl (by decide) (by decide) (by decide)
    (fun c2 hc2 => by
      have hp : ([Call.mk "order_by" ["-a"] [],
          Call.mk "filter" [] []] : List Call).getLast?
          = some (Call.mk "filter" [] []) := by decide
      rw [hp] at hc2
      injection hc2 with he
      rw [← he]
      decide)
  exact h.trans (by decide)

/-- Claim C8 counterexample: `count()` is not independent of `order_by`
placement.  Two logs with identical `filter` entries, one with an
`order_by` interleaved between them, produce different merged filter maps
and different count query bodies, because the consecutive-run grouping
keeps only the last run of `filter` calls. -/
theorem count_interleaving_counterexample :
    ([Call.mk "filter" [] [("user", Value.str "a")],
      Call.mk "filter" [] [("asset", Value.str "b")]].filter
        (fun c => c.name == "filter")
      = [Call.mk "filter" [] [("user", Value.str "a")],
         Call.mk "order_by" ["x"] [],
         Call.mk "filter" [] [("asset", Value.str "b")]].filter
          (fun c => c.name == "filter"))
    ∧ (QuerySet.mk
        [Call.mk "filter" [] [("user", Value.str "a")],
         Call.mk "filter" [] [("asset", Value.str "b")]] none).count_body
      ≠ (QuerySet.mk
        [Call.mk "filter" [] [("user", Value.str "a")],
         Call.mk "order_by" ["x"] [],
         Call.mk "filter" [] [("asset", Value.str "b")]] none).count_body :=
  ⟨by decide, by decide⟩

/-- Claim C8 (amended): for two builders whose logs contain the same
`filter` entries forming one contiguous block in each log, `count()`
derives the same merged filter map and issues the same filter-only count
query, regardless of the surrounding non-`filter` (e.g. `order_by`)
entries and of the pagination windows. -/
theorem count_body_from_contiguous_filter_block
    (pre1 mid post1 pre2 post2 : List Call) (s1 s2 : Option (Int × Int))
    (hp1 : ∀ x ∈ pre1, x.name ≠ "filter") (hq1 : ∀ x ∈ post1, x.name ≠ "filter")
    (hp2 : ∀ x ∈ pre2, x.name ≠ "filter") (hq2 : ∀ x ∈ post2, x.name ≠ "filter")
    (hmid : ∀ x ∈ mid, x.name = "filter") :
    (QuerySet.mk (pre1 ++ mid ++ post1) s1)._filter_kwargs
        = (QuerySet.mk (pre2 ++ mid ++ post2) s2)._filter_kwargs
    ∧ (QuerySet.mk (pre1 ++ mid ++ post1) s1).count_body
        = (QuerySet.mk (pre2 ++ mid ++ post2) s2).count_body := by
  have h1 := filterKwargs_decomp pre1 mid post1 hp1 hmid hq1
  have h2 := filterKwargs_decomp pre2 mid post2 hp2 hmid hq2
  constructor
  · show filterKwargsOfCalls (pre1 ++ mid ++ post1)
      = filterKwargsOfCalls (pre2 ++ mid ++ post2)
    rw [h1, h2]
  · show get_query_body (filterKwargsOfCalls (pre1 ++ mid ++ post1))
      = get_query_body (filterKwargsOfCalls (pre2 ++ mid ++ post2))
    rw [h1, h2]

/-- Witness for C8 (amended): `filter(user="a").order_by("x")` unsliced and
`order_by("-t").filter(user="a")` sliced `(3, 4)` issue the same count
body. -/
theorem count_body_from_contiguous_filter_block_witness :
    (QuerySet.mk
        [Call.mk "filter" [] [("user", Value.str "a")],
         Call.mk "order_by" ["x"] []] none).count_body
      = (QuerySet.mk
        [Call.mk "order_by" ["-t"] [],
         Call.mk "filter" [] [("user", Value.str "a")]]
        (some (3, 4))).count_body :=
  (count_body_from_contiguous_filter_block
    [] [Call.mk "filter" [] [("user", Value.str "a")]]
    [Call.mk "order_by" ["x"] []]
    [Call.mk "order_by" ["-t"] []] [] none (some (3, 4))
    (by simp) (by decide) (by decide) (by simp) (by decide)).2

/-- Claim C7 counterexample: the range clause is guarded by Python
truthiness, not key presence.  With `date_from=""` and `date_to="2020"`
both keys are present in the filter map, yet the translated body contains
no range constraint. -/
theorem range_requires_truthy_counterexample :
    dget [("date_from", Value.str ""), ("date_to", Value.str "2020")]
        "date_from" = some (Value.str "")
    ∧ dget [("date_from", Value.str ""), ("date_to", Value.str "2020")]
        "date_to" = some (Value.str "2020")
    ∧ get_query_body [("date_from", Value.str ""), ("date_to", Value.str "2020")]
        = { must := [], must_not := [], filter := [] } :=
  ⟨by decide, by decide, by decide⟩

/-- Claim C7 (amended): the translated body carries the range constraint
`range f t` on `timestamp` exactly when `date_from` is present with the
truthy value `f` and `date_to` is present with the truthy value `t`
(an empty-string or zero bound is dropped like an absent one). -/
theorem range_clause_iff_truthy_bounds (kwargs : Dict) (f t : Value) :
    Clause.range f t ∈ (get_query_body kwargs).filter
      ↔ (dget kwargs "date_from" = some f ∧ dget kwargs "date_to" = some t
          ∧ f.truthy = true ∧ t.truthy = true) := by
  unfold get_query_body
  cases hdf : dget kwargs "date_from" with
  | none => simp [hdf]
  | some f2 =>
    cases hdt : dget kwargs "date_to" with
    | none => simp [hdf, hdt]
    | some t2 =>
      by_cases htr : f2.truthy && t2.truthy
      · simp only [htr, if_true, hdf, hdt, List.mem_append, List.mem_map]
        simp only [Bool.and_eq_true] at htr
        constructor
        · rintro (⟨p, _, hpe⟩ | hm)
          · cases hpe
          · simp only [List.mem_singleton] at hm
            injection hm with he1 he2
            subst he1
            subst he2
            exact ⟨rfl, rfl, htr.1, htr.2⟩
        · rintro ⟨he1, he2, _, _⟩
          injection he1 with he1
          injection he2 with he2
          subst he1
          subst he2
          simp
      · simp only [htr, if_false, hdf, hdt, List.mem_append, List.mem_map,
          Bool.false_eq_true]
        constructor
        · rintro (⟨p, _, hpe⟩ | hm)
          · cases hpe
          · simp at hm
        · rintro ⟨he1, he2, ht1, ht2⟩
          injection he1 with he1
          injection he2 with he2
          subst he1
          subst he2
          rw [ht1, ht2] at htr
          simp at htr

theorem get_query_body_must_groups (kwargs : Dict) :
    ((get_query_body kwargs).must, (get_query_body kwargs).must_not)
      = (if dget (routeFields kwargs).1 "org_id" = some (Value.str "")
         then (((routeFields kwargs).1.filter
                  (fun p => p.1 != "org_id")).map
                 (fun p => Clause.matchQ p.1 p.2),
               [Clause.wildcardOrg])
         else ((routeFields kwargs).1.map (fun p => Clause.matchQ p.1 p.2),
               [])) := by
  unfold get_query_body
  by_cases h : dget (routeFields kwargs).1 "org_id" = some (Value.str "")
  · simp [h]
  · simp [h]

/-- Claim C6: an empty-string `org_id` in the filter map never becomes a
match clause — it is replaced by the wildcard exclusion
`{wildcard: {org_id: "*"}}` in `must_not` — while a non-empty `org_id`
value yields an ordinary `org_id` match clause and no exclusion. -/
theorem org_id_empty_wildcard_exclusion (kwargs : Dict)
    (hnd : (dkeys kwargs).Nodup) :
    (dget kwargs "org_id" = some (Value.str "") →
      (∀ v, Clause.matchQ "org_id" v ∉ (get_query_body kwargs).must)
      ∧ (get_query_body kwargs).must_not = [Clause.wildcardOrg])
    ∧ (∀ v, dget kwargs "org_id" = some v → v ≠ Value.str "" →
      Clause.matchQ "org_id" v ∈ (get_query_body kwargs).must
      ∧ (get_query_body kwargs).must_not = []) := by
  have hroute := routeFields_eq_filters kwargs hnd
  have horg : dget (routeFields kwargs).1 "org_id" = dget kwargs "org_id" := by
    rw [hroute]
    exact dget_filter_of_key _ kwargs "org_id" (fun x hx => by rw [hx]; decide)
  have hgroups := get_query_body_must_groups kwargs
  constructor
  · intro h
    rw [horg.trans h, if_pos rfl] at hgroups
    have hmust := congrArg Prod.fst hgroups
    have hmn := congrArg Prod.snd hgroups
    simp only at hmust hmn
    refine ⟨?_, hmn⟩
    intro v hv
    rw [hmust] at hv
    obtain ⟨p, hp, hpe⟩ := List.mem_map.mp hv
    injection hpe with hpe1 hpe2
    have hpk := List.of_mem_filter hp
    rw [hpe1] at hpk
    simp at hpk
  · intro v hv hne
    have hcond : ¬ dget (routeFields kwargs).1 "org_id"
        = some (Value.str "") := by
      rw [horg, hv]
      intro he
      injection he with he2
      exact hne he2
    rw [if_neg hcond] at hgroups
    have hmust := congrArg Prod.fst hgroups
    have hmn := congrArg Prod.snd hgroups
    simp only at hmust hmn
    refine ⟨?_, hmn⟩
    rw [hmust]
    have hmem : ("org_id", v) ∈ (routeFields kwargs).1 :=
      dget_some_mem _ _ _ (horg.trans hv)
    exact List.mem_map_of_mem (fun p => Clause.matchQ p.1 p.2) hmem

/-- Witness for C6: `filter(org_id="")` translates to the wildcard
exclusion and no `org_id` match clause, and `filter(org_id="x")`
translates to a plain match clause with empty `must_not`. -/
theorem org_id_empty_wildcard_exclusion_witness :
    (get_query_body [("org_id", Value.str "")]).must_not
        = [Clause.wildcardOrg]
    ∧ Clause.matchQ "org_id" (Value.str "x")
        ∈ (get_query_body [("org_id", Value.str "x")]).must :=
  ⟨((org_id_empty_wildcard_exclusion [("org_id", Value.str "")]
      (by decide)).1 (by decide)).2,
   ((org_id_empty_wildcard_exclusion [("org_id", Value.str "x")]
      (by decide)).2 (Value.str "x") (by decide) (by decide)).1⟩

/-- Claim C9: staging a call never mutates the receiver — the receiver's
log cell is unchanged, the clone holds a freshly allocated cell containing
the receiver's log with exactly the one staged entry appended, and the
pagination window is carried over unchanged; first-time slicing likewise
clones, leaving the receiver's cell (and, the window being an immutable
tuple attribute of the value, the receiver's unset window) untouched and
setting only the clone's window. -/
theorem staging_clones_and_preserves_receiver (h : Heap) (b : HQuerySet)
    (c : Call) (start stop : Option Int)
    (hv : b.logRef < h.cells.length) :
    (hget (hstage h b c).1 b.logRef = hget h b.logRef
      ∧ (hstage h b c).2._slice = b._slice
      ∧ (hstage h b c).2.logRef ≠ b.logRef
      ∧ hget (hstage h b c).1 (hstage h b c).2.logRef
          = hget h b.logRef ++ [c])
    ∧ (b._slice = none →
      hget (hslice h b start stop).1 b.logRef = hget h b.logRef
      ∧ (hslice h b start stop).2._slice = some (sliceWindow start stop)
      ∧ hget (hslice h b start stop).1 (hslice h b start stop).2.logRef
          = hget h b.logRef) := by
  have hne : h.cells.length ≠ b.logRef := (Nat.ne_of_lt hv).symm
  constructor
  · refine ⟨?_, rfl, hne, ?_⟩
    · show hget
        ⟨(h.cells ++ [hget h b.logRef]).set h.cells.length
          (hget ⟨h.cells ++ [hget h b.logRef]⟩ h.cells.length ++ [c])⟩
        b.logRef = hget h b.logRef
      rw [hget_append_self h.cells (hget h b.logRef),
        hget_set_ne _ _ _ _ hne, hget_append_lt _ _ _ hv]
    · show hget
        ⟨(h.cells ++ [hget h b.logRef]).set h.cells.length
          (hget ⟨h.cells ++ [hget h b.logRef]⟩ h.cells.length ++ [c])⟩
        h.cells.length = hget h b.logRef ++ [c]
      rw [hget_append_self h.cells (hget h b.logRef),
        hget_set_self _ _ _ (by simp)]
  · intro _
    refine ⟨?_, rfl, ?_⟩
    · show hget ⟨h.cells ++ [hget h b.logRef]⟩ b.logRef = hget h b.logRef
      rw [hget_append_lt _ _ _ hv]
    · show hget ⟨h.cells ++ [hget h b.logRef]⟩ h.cells.length
        = hget h b.logRef
      exact hget_append_self h.cells (hget h b.logRef)

/-- Witness for C9: staging `order_by("-t")` on a builder that references
cell 0 of a one-cell heap leaves cell 0 unchanged and gives the clone a
fresh cell with the entry appended. -/
theorem staging_clones_and_preserves_receiver_witness :
    (0 : Nat) < (Heap.mk [[Call.mk "filter" [] [("user", Value.str "a")]]]).cells.length
    ∧ hget
        (hstage (Heap.mk [[Call.mk "filter" [] [("user", Value.str "a")]]])
          (HQuerySet.mk 0 none) (Call.mk "order_by" ["-t"] [])).1 0
      = [Call.mk "filter" [] [("user", Value.str "a")]]
    ∧ hget
        (hstage (Heap.mk [[Call.mk "filter" [] [("user", Value.str "a")]]])
          (HQuerySet.mk 0 none) (Call.mk "order_by" ["-t"] [])).1
        (hstage (Heap.mk [[Call.mk "filter" [] [("user", Value.str "a")]]])
          (HQuerySet.mk 0 none) (Call.mk "order_by" ["-t"] [])).2.logRef
      = [Call.mk "filter" [] [("user", Value.str "a")],
         Call.mk "order_by" ["-t"] []] := by
  have h := staging_clones_and_preserves_receiver
    (Heap.mk [[Call.mk "filter" [] [("user", Value.str "a")]]])
    (HQuerySet.mk 0 none) (Call.mk "order_by" ["-t"] [])
    none none (by decide)
  exact ⟨by decide, (h.1.1).trans (by decide), (h.1.2.2.2).trans (by decide)⟩

end ES
